import Mathlib

/-!
Verification of the subtitle segmenter and SRT emitter of `transcribe.py`.

Shallow embedding of the subtitle-generation core of the repository:

* `build_subtitles_from_words` — the segmenter (source lines 95-119);
* `format_time` — SRT timestamp rendering (source lines 72-81);
* the emission loop of `main` (source lines 173-190).

Python floats are modelled as exact rationals (`ℚ`); Python `int`s as `ℤ`.
Fallible code (out-of-bounds list indexing raises `IndexError` in Python)
is modelled with `Option`.
-/

/-- A word record as produced by the recognizer: Python dict with keys
`"word"`, `"start"`, `"end"`. -/
structure Word where
  word : String
  start : ℚ
  «end» : ℚ
  deriving DecidableEq

/-- A subtitle cue: the tuple `(start_time, end_time, text)` appended to
`subs` by `build_subtitles_from_words`. -/
structure Cue where
  start : ℚ
  «end» : ℚ
  text : String
  deriving DecidableEq

/-- Default `Word`, used only to give `List.headD` / `List.getLastD` a
value that is never read (the lists are provably non-empty there). -/
def dw : Word := ⟨"", 0, 0⟩

/-- Python's `" ".join(x["word"] for x in ws)`. -/
def joinWords : List Word → String
  | [] => ""
  | [w] => w.word
  | w :: rest => w.word ++ " " ++ joinWords rest

/-- The `for` loop of `build_subtitles_from_words` (source lines 100-114)
followed by the final flush (lines 116-117), as a recursion over the
remaining words.  State: the accumulated `subs`, the accumulating group
`current_words`, and `start_time`.  Python's `current_words[-1]` on an
empty list raises `IndexError`; that is the `none` result. -/
def segLoop (pause : ℚ) (max_len : ℤ) :
    List Word → List Cue → List Word → ℚ → Option (List Cue)
  | [], subs, current_words, start_time =>
    if current_words.isEmpty then some subs
    else some (subs ++
      [⟨start_time, (current_words.getLastD dw).«end», joinWords current_words⟩])
  | w :: rest, subs, current_words, start_time =>
    let gap : ℚ :=
      if current_words.isEmpty then 0
      else w.start - (current_words.getLastD dw).«end»
    let text_len : ℤ := (joinWords current_words).length
    if gap > pause ∨ text_len > max_len then
      if current_words.isEmpty then none
      else
        segLoop pause max_len rest
          (subs ++
            [⟨start_time, (current_words.getLastD dw).«end», joinWords current_words⟩])
          [w] w.start
    else
      segLoop pause max_len rest subs (current_words ++ [w]) start_time

/-- Translation of `build_subtitles_from_words(words, pause, max_len)`
(source lines 95-119).  Reading `words[0]["start"]` on an empty list
raises `IndexError`, modelled as `none`. -/
def build_subtitles_from_words (words : List Word) (pause : ℚ) (max_len : ℤ) :
    Option (List Cue) :=
  match words with
  | [] => none
  | w0 :: _ => segLoop pause max_len words [] [] w0.start

/-- The cue that flushing a group `g` produces: start of the first word,
end of the last word, the words joined by single spaces. -/
def cueOf (g : List Word) : Cue :=
  ⟨(g.headD dw).start, (g.getLastD dw).«end», joinWords g⟩

/-- Python's `int(q)` for a rational: truncation toward zero. -/
def int_trunc (q : ℚ) : ℤ := if 0 ≤ q then ⌊q⌋ else ⌈q⌉

/-- Python's `f"{n:0w}"` zero-padding of an integer to width `w`
(zeros go between the sign and the digits). -/
def pyPad (width : ℕ) (n : ℤ) : String :=
  let sign := if n < 0 then "-" else ""
  let digits := toString n.natAbs
  let zeros := String.mk (List.replicate (width - sign.length - digits.length) '0')
  sign ++ zeros ++ digits

/-- Translation of `format_time(seconds)` (source lines 72-81).  The Python code routes
`seconds` through `timedelta(seconds=seconds)` whose microsecond
normalisation is the identity on microsecond-aligned values, then takes
`int(td.total_seconds())` (truncation) and
`int((seconds - total_seconds) * 1000)` (truncation); `//` and `%` on
Python ints are floor division and floor modulus (`Int.fdiv`/`Int.fmod`). -/
def format_time (seconds : ℚ) : String :=
  let total_seconds : ℤ := int_trunc seconds
  let millis : ℤ := int_trunc ((seconds - (total_seconds : ℚ)) * 1000)
  let hours : ℤ := Int.fdiv total_seconds 3600
  let minutes : ℤ := Int.fdiv (Int.fmod total_seconds 3600) 60
  let secs : ℤ := Int.fmod total_seconds 60
  pyPad 2 hours ++ ":" ++ pyPad 2 minutes ++ ":" ++ pyPad 2 secs ++ "," ++ pyPad 3 millis

/-- Python's `s.strip()`: remove leading and trailing whitespace
(modelled with `Char.isWhitespace`, which covers the ASCII whitespace
Python strips). -/
def pyStrip (s : String) : String :=
  ⟨((s.data.dropWhile Char.isWhitespace).reverse.dropWhile Char.isWhitespace).reverse⟩

/-- One SRT block as written by `main` (source lines 187-189):
index line, timing line, stripped text, blank line. -/
def emitCue (index : ℕ) (c : Cue) : String :=
  toString index ++ "\n" ++ format_time c.start ++ " --> " ++ format_time c.«end» ++ "\n"
    ++ pyStrip c.text ++ "\n\n"

/-- The inner `for start, end, text in subtitles` loop of `main`
(source lines 186-190): writes one block per cue and increments the
running index once per cue.  Returns the written text and the final
index. -/
def writeCues (index : ℕ) : List Cue → String × ℕ
  | [] => ("", index)
  | c :: rest =>
    let r := writeCues (index + 1) rest
    (emitCue index c ++ r.1, r.2)

/-- The outer `for segment in result["segments"]` loop of `main`
(source lines 173-190): segments without words are skipped (`continue`),
otherwise the segment's words are segmented and the cues written.
Threads the running index; `none` if `build_subtitles_from_words`
raises. -/
def writeSegments (pause : ℚ) (max_len : ℤ) : ℕ → List (List Word) → Option (String × ℕ)
  | index, [] => some ("", index)
  | index, seg :: rest =>
    if seg.isEmpty then writeSegments pause max_len index rest
    else
      match build_subtitles_from_words seg pause max_len with
      | none => none
      | some subs =>
        let r := writeCues index subs
        match writeSegments pause max_len r.2 rest with
        | none => none
        | some s => some (r.1 ++ s.1, s.2)

/-- The cue stream of a run: the concatenation, in order, of the cues of
every non-empty segment (empty segments are skipped, as in `main`). -/
def collectCues (pause : ℚ) (max_len : ℤ) : List (List Word) → Option (List Cue)
  | [] => some []
  | seg :: rest =>
    if seg.isEmpty then collectCues pause max_len rest
    else
      match build_subtitles_from_words seg pause max_len with
      | none => none
      | some subs =>
        match collectCues pause max_len rest with
        | none => none
        | some more => some (subs ++ more)

/-- The SRT document for a cue list starting at a given index: block `k`
carries index `index + k`. -/
def renderDoc (index : ℕ) (cues : List Cue) : String :=
  (((List.range' index cues.length).zip cues).map fun p => emitCue p.1 p.2).foldr
    (· ++ ·) ""

/-! ## Structural lemmas about the segmenter loop -/

/-- Whatever the loop appends, the cues already flushed stay as a prefix
of the result. -/
theorem segLoop_prefix (pause : ℚ) (max_len : ℤ) :
    ∀ (rest : List Word) (subs : List Cue) (cur : List Word) (st : ℚ)
      (out : List Cue),
      segLoop pause max_len rest subs cur st = some out →
      ∃ t, out = subs ++ t := by
  intro rest
  induction rest with
  | nil =>
    intro subs cur st out h
    simp only [segLoop] at h
    split at h
    · exact ⟨[], by simp [← Option.some_inj.mp h]⟩
    · exact ⟨_, (Option.some_inj.mp h).symm⟩
  | cons w rest ih =>
    intro subs cur st out h
    match cur with
    | [] =>
      simp only [segLoop, List.isEmpty_nil, if_true, List.nil_append] at h
      split at h
      · exact absurd h (by simp)
      · exact ih _ _ _ _ h
    | c :: cs =>
      simp only [segLoop, List.isEmpty_cons, Bool.false_eq_true, if_false] at h
      split at h
      · obtain ⟨t, ht⟩ := ih _ _ _ _ h
        exact ⟨_, by rw [ht, List.append_assoc]⟩
      · exact ih _ _ _ _ h

/-- With non-negative `pause` and `max_len` the loop never reaches the
crashing branch (`current_words[-1]` on an empty group). -/
theorem segLoop_isSome (pause : ℚ) (max_len : ℤ) (hp : 0 ≤ pause) (hm : 0 ≤ max_len) :
    ∀ (rest : List Word) (subs : List Cue) (cur : List Word) (st : ℚ),
      (segLoop pause max_len rest subs cur st).isSome := by
  intro rest
  induction rest with
  | nil =>
    intro subs cur st
    simp only [segLoop]
    split <;> simp
  | cons w rest ih =>
    intro subs cur st
    match cur with
    | [] =>
      have hc : ¬((0 : ℚ) > pause ∨ ((joinWords []).length : ℤ) > max_len) := by
        simp only [joinWords]
        push_neg
        exact ⟨hp, by simpa using hm⟩
      simp only [segLoop, List.isEmpty_nil, if_true, if_neg hc, List.nil_append]
      exact ih subs [w] st
    | c :: cs =>
      simp only [segLoop, List.isEmpty_cons, if_false, Bool.false_eq_true]
      split
      · exact ih _ [w] w.start
      · exact ih subs (c :: cs ++ [w]) st

/-- Loop invariant: a successful run of the loop partitions
`cur ++ rest` into consecutive non-empty groups and flushes exactly
`cueOf` of each group, in order, after the cues already in `subs`. -/
theorem segLoop_partition (pause : ℚ) (max_len : ℤ) :
    ∀ (rest : List Word) (subs : List Cue) (cur : List Word) (st : ℚ),
      (cur = [] → ∀ v rest2, rest = v :: rest2 → st = v.start) →
      (cur ≠ [] → st = (cur.headD dw).start) →
      ∀ out, segLoop pause max_len rest subs cur st = some out →
      ∃ groups : List (List Word),
        cur ++ rest = groups.flatten ∧
        (∀ g ∈ groups, g ≠ []) ∧
        out = subs ++ groups.map cueOf := by
  intro rest
  induction rest with
  | nil =>
    intro subs cur st h0 h1 out h
    match cur with
    | [] =>
      refine ⟨[], by simp, by simp, ?_⟩
      simp only [segLoop, List.isEmpty_nil, if_true] at h
      simp [← Option.some_inj.mp h]
    | c :: cs =>
      have hst : st = c.start := by simpa using h1 (by simp)
      subst hst
      refine ⟨[c :: cs], by simp, by simp, ?_⟩
      simp only [segLoop, List.isEmpty_cons, Bool.false_eq_true, if_false] at h
      rw [← Option.some_inj.mp h]
      simp [cueOf]
  | cons w rest ih =>
    intro subs cur st h0 h1 out h
    match cur with
    | [] =>
      have hst : st = w.start := h0 rfl w rest rfl
      subst hst
      simp only [segLoop, List.isEmpty_nil, if_true, List.nil_append] at h
      split at h
      · exact absurd h (by simp)
      · obtain ⟨groups, hflat, hne, hout⟩ :=
          ih subs [w] w.start (by simp) (by simp) out h
        exact ⟨groups, by simpa using hflat, hne, hout⟩
    | c :: cs =>
      have hst : st = c.start := by simpa using h1 (by simp)
      subst hst
      simp only [segLoop, List.isEmpty_cons, Bool.false_eq_true, if_false] at h
      split at h
      · obtain ⟨groups, hflat, hne, hout⟩ :=
          ih (subs ++ [⟨c.start, ((c :: cs).getLastD dw).«end», joinWords (c :: cs)⟩])
            [w] w.start (by simp) (by simp) out h
        refine ⟨(c :: cs) :: groups, ?_, ?_, ?_⟩
        · rw [List.flatten_cons, ← hflat]
          simp
        · intro g hg
          rcases List.mem_cons.mp hg with rfl | hg
          · simp
          · exact hne g hg
        · rw [hout, List.map_cons, List.append_assoc]
          simp [cueOf]
      · obtain ⟨groups, hflat, hne, hout⟩ :=
          ih subs ((c :: cs) ++ [w]) c.start (by simp) (by simp) out h
        refine ⟨groups, ?_, hne, hout⟩
        rw [← hflat]
        simp

/-- A successful run of `build_subtitles_from_words` partitions the
input into consecutive non-empty groups whose cues it returns. -/
theorem build_partition (words : List Word) (pause : ℚ) (max_len : ℤ)
    (subs : List Cue)
    (h : build_subtitles_from_words words pause max_len = some subs) :
    ∃ groups : List (List Word),
      words = groups.flatten ∧ (∀ g ∈ groups, g ≠ []) ∧
      subs = groups.map cueOf := by
  match words with
  | [] => simp [build_subtitles_from_words] at h
  | w0 :: rest =>
    simp only [build_subtitles_from_words] at h
    obtain ⟨groups, hflat, hne, hout⟩ :=
      segLoop_partition pause max_len (w0 :: rest) [] [] w0.start
        (by intro _ v r2 hv; cases hv; rfl) (by simp) subs h
    exact ⟨groups, by simpa using hflat, hne, by simpa using hout⟩

/-- On non-empty input with non-negative parameters the segmenter
cannot fail. -/
theorem build_total (words : List Word) (pause : ℚ) (max_len : ℤ)
    (hw : words ≠ []) (hp : 0 ≤ pause) (hm : 0 ≤ max_len) :
    ∃ subs, build_subtitles_from_words words pause max_len = some subs := by
  match words with
  | [] => exact absurd rfl hw
  | w0 :: rest =>
    have h := segLoop_isSome pause max_len hp hm (w0 :: rest) [] [] w0.start
    obtain ⟨subs, hsubs⟩ := Option.isSome_iff_exists.mp h
    exact ⟨subs, by simpa [build_subtitles_from_words] using hsubs⟩

/-! ## Claims -/

/-- C1: for every non-empty input list of word records with
`pauseThreshold > 0` and `maxTextLength > 0`, the segmenter partitions
the input into consecutive non-empty groups — so the total number of
words across all returned cues equals the number of input words: no word
is dropped and no word is duplicated. -/
theorem C1_segmenter_conserves_words (words : List Word) (pause : ℚ) (max_len : ℤ)
    (hw : words ≠ []) (hp : 0 < pause) (hm : 0 < max_len) :
    ∃ (subs : List Cue) (groups : List (List Word)),
      build_subtitles_from_words words pause max_len = some subs ∧
      subs = groups.map cueOf ∧ words = groups.flatten ∧
      (groups.map List.length).sum = words.length := by
  obtain ⟨subs, hsubs⟩ := build_total words pause max_len hw hp.le hm.le
  obtain ⟨groups, hflat, _, hout⟩ := build_partition words pause max_len subs hsubs
  exact ⟨subs, groups, hsubs, hout, hflat, by rw [hflat, List.length_flatten]⟩

theorem C1_witness :
    ∃ (subs : List Cue) (groups : List (List Word)),
      build_subtitles_from_words [⟨"hi", 0, 1⟩] 1 40 = some subs ∧
      subs = groups.map cueOf ∧ [(⟨"hi", 0, 1⟩ : Word)] = groups.flatten ∧
      (groups.map List.length).sum = [(⟨"hi", 0, 1⟩ : Word)].length :=
  C1_segmenter_conserves_words [⟨"hi", 0, 1⟩] 1 40 (by simp) (by norm_num) (by norm_num)

/-- C8: on every non-empty word list with `pauseThreshold > 0` and
`maxTextLength > 0` the segmenter cannot fail: the access to the first
word is in bounds and the flushing branch (which reads the last word of
the current group) is never reached with an empty group. -/
theorem C8_segmenter_total (words : List Word) (pause : ℚ) (max_len : ℤ)
    (hw : words ≠ []) (hp : 0 < pause) (hm : 0 < max_len) :
    ∃ subs, build_subtitles_from_words words pause max_len = some subs :=
  build_total words pause max_len hw hp.le hm.le

theorem C8_witness :
    ∃ subs, build_subtitles_from_words [⟨"a", 0, 1⟩, ⟨"b", 9, 10⟩] 1 40 = some subs :=
  C8_segmenter_total [⟨"a", 0, 1⟩, ⟨"b", 9, 10⟩] 1 40 (by simp) (by norm_num) (by norm_num)

/-- The first words of the groups form a sublist of the flattened
groups. -/
theorem headD_map_sublist_flatten (groups : List (List Word))
    (hne : ∀ g ∈ groups, g ≠ []) :
    (groups.map (fun g => g.headD dw)).Sublist groups.flatten := by
  induction groups with
  | nil => simp
  | cons g gs ih =>
    match g, hne g (by simp) with
    | c :: cs, _ =>
      simp only [List.map_cons, List.flatten_cons, List.headD_cons, List.cons_append]
      exact ((ih fun g hg => hne g (by simp [hg])).trans
        (List.sublist_append_right cs gs.flatten)).cons₂ c

/-- C9: if the input word start times are non-decreasing then the start
times of the returned cues are non-decreasing. -/
theorem C9_monotone_starts (words : List Word) (pause : ℚ) (max_len : ℤ)
    (subs : List Cue)
    (h : build_subtitles_from_words words pause max_len = some subs)
    (hmono : (words.map Word.start).Pairwise (· ≤ ·)) :
    (subs.map Cue.start).Pairwise (· ≤ ·) := by
  obtain ⟨groups, hflat, hne, hout⟩ := build_partition words pause max_len subs h
  have h1 : subs.map Cue.start = (groups.map (fun g => g.headD dw)).map Word.start := by
    rw [hout, List.map_map, List.map_map]
    rfl
  rw [h1]
  have h2 := (headD_map_sublist_flatten groups hne).map Word.start
  rw [← hflat] at h2
  exact List.Pairwise.sublist h2 hmono

theorem C9_witness :
    (([⟨0, 1, "a"⟩, ⟨5, 6, "b"⟩] : List Cue).map Cue.start).Pairwise (· ≤ ·) :=
  C9_monotone_starts [⟨"a", 0, 1⟩, ⟨"b", 5, 6⟩] 1 40 [⟨0, 1, "a"⟩, ⟨5, 6, "b"⟩]
    (by norm_num [build_subtitles_from_words, segLoop, joinWords, dw])
    (by decide)

/-- C10: if every word satisfies `end ≥ start` and the word start times
are non-decreasing, every returned cue satisfies `start ≤ end`. -/
theorem C10_cue_start_le_end (words : List Word) (pause : ℚ) (max_len : ℤ)
    (subs : List Cue)
    (h : build_subtitles_from_words words pause max_len = some subs)
    (hwe : ∀ w ∈ words, w.start ≤ w.«end»)
    (hmono : (words.map Word.start).Pairwise (· ≤ ·)) :
    ∀ c ∈ subs, c.start ≤ c.«end» := by
  obtain ⟨groups, hflat, hne, hout⟩ := build_partition words pause max_len subs h
  intro c hc
  rw [hout] at hc
  obtain ⟨g, hg, rfl⟩ := List.mem_map.mp hc
  have hsub : g.Sublist words := by
    rw [hflat]
    exact List.sublist_flatten_of_mem hg
  match g, hne g hg with
  | c0 :: cs, _ =>
    have hpg : ((c0 :: cs).map Word.start).Pairwise (· ≤ ·) :=
      List.Pairwise.sublist (hsub.map Word.start) hmono
    have hlastmem : (c0 :: cs).getLastD dw ∈ c0 :: cs := by
      rw [List.getLastD_cons]
      exact List.getLastD_mem_cons cs c0
    have h1 : c0.start ≤ ((c0 :: cs).getLastD dw).start := by
      obtain ⟨hall, -⟩ : (∀ a ∈ cs, c0.start ≤ a.start) ∧
          List.Pairwise (fun x1 x2 => x1 ≤ x2) (List.map Word.start cs) := by
        simpa using hpg
      rcases List.mem_cons.mp hlastmem with he | hm
      · rw [he]
      · exact hall _ hm
    have h2 : ((c0 :: cs).getLastD dw).start ≤ ((c0 :: cs).getLastD dw).«end» :=
      hwe _ (hsub.subset hlastmem)
    simpa [cueOf] using h1.trans h2

theorem C10_witness :
    (⟨0, 1, "a"⟩ : Cue).start ≤ (⟨0, 1, "a"⟩ : Cue).«end» :=
  C10_cue_start_le_end [⟨"a", 0, 1⟩, ⟨"b", 5, 6⟩] 1 40 [⟨0, 1, "a"⟩, ⟨5, 6, "b"⟩]
    (by norm_num [build_subtitles_from_words, segLoop, joinWords, dw])
    (by decide) (by decide) ⟨0, 1, "a"⟩ (by decide)

/-- C2: the gap check is strict.  For two adjacent words (with the first
word's text within the length bound), a gap of exactly `pauseThreshold`
keeps them in the same cue, and a gap strictly greater than
`pauseThreshold` splits them into separate cues. -/
theorem C2_gap_strictness (w1 w2 : Word) (pause : ℚ) (max_len : ℤ)
    (hp : 0 < pause) (hm : 0 < max_len) (hlen : (w1.word.length : ℤ) ≤ max_len) :
    (w2.start - w1.«end» = pause →
      build_subtitles_from_words [w1, w2] pause max_len =
        some [⟨w1.start, w2.«end», w1.word ++ " " ++ w2.word⟩]) ∧
    (w2.start - w1.«end» > pause →
      build_subtitles_from_words [w1, w2] pause max_len =
        some [⟨w1.start, w1.«end», w1.word⟩, ⟨w2.start, w2.«end», w2.word⟩]) := by
  have hc1 : ¬((0 : ℚ) > pause ∨ ((("" : String).length : ℤ) > max_len)) := by
    push_neg
    exact ⟨hp.le, by simpa using hm.le⟩
  constructor
  · intro hgap
    have hc2 : ¬(w2.start - w1.«end» > pause ∨ ((w1.word.length : ℤ) > max_len)) := by
      push_neg
      exact ⟨le_of_eq hgap, hlen⟩
    simp only [build_subtitles_from_words, segLoop, List.isEmpty_nil, List.isEmpty_cons,
      Bool.false_eq_true, if_true, if_false, List.nil_append, List.singleton_append,
      List.getLastD_cons, List.getLastD_nil, joinWords]
    rw [if_neg hc1, if_neg hc2]
  · intro hgap
    have hc2 : w2.start - w1.«end» > pause ∨ ((w1.word.length : ℤ) > max_len) :=
      Or.inl hgap
    simp only [build_subtitles_from_words, segLoop, List.isEmpty_nil, List.isEmpty_cons,
      Bool.false_eq_true, if_true, if_false, List.nil_append, List.singleton_append,
      List.getLastD_cons, List.getLastD_nil, joinWords]
    rw [if_neg hc1, if_pos hc2]

theorem C2_witness :
    (((2 : ℚ) - 1 = 1 →
      build_subtitles_from_words [⟨"a", 0, 1⟩, ⟨"b", 2, 3⟩] 1 40 =
        some [⟨0, 3, "a" ++ " " ++ "b"⟩]) ∧
    ((2 : ℚ) - 1 > 1 →
      build_subtitles_from_words [⟨"a", 0, 1⟩, ⟨"b", 2, 3⟩] 1 40 =
        some [⟨0, 1, "a"⟩, ⟨2, 3, "b"⟩])) :=
  C2_gap_strictness ⟨"a", 0, 1⟩ ⟨"b", 2, 3⟩ 1 40 (by norm_num) (by norm_num) (by decide)

/-- C4: the split decision is look-before-append.  With no pause gap, if
the length of the words already in the group (joined by single spaces)
exceeds `max_len` the group is flushed WITHOUT the current word, which
starts the new group; if that pre-append length is within the bound the
current word is appended, with no check of the post-append length. -/
theorem C4_look_before_append (pause : ℚ) (max_len : ℤ) (w : Word) (rest : List Word)
    (subs : List Cue) (cur : List Word) (st : ℚ) (hcur : cur ≠ [])
    (hgap : w.start - (cur.getLastD dw).«end» ≤ pause) :
    (((joinWords cur).length : ℤ) > max_len →
      segLoop pause max_len (w :: rest) subs cur st =
        segLoop pause max_len rest
          (subs ++ [⟨st, (cur.getLastD dw).«end», joinWords cur⟩]) [w] w.start) ∧
    (((joinWords cur).length : ℤ) ≤ max_len →
      segLoop pause max_len (w :: rest) subs cur st =
        segLoop pause max_len rest subs (cur ++ [w]) st) := by
  match cur with
  | c :: cs =>
    constructor
    · intro hlen
      simp only [segLoop, List.isEmpty_cons, Bool.false_eq_true, if_false]
      rw [if_pos (Or.inr hlen)]
    · intro hlen
      have hc : ¬(w.start - ((c :: cs).getLastD dw).«end» > pause ∨
          (((joinWords (c :: cs)).length : ℤ) > max_len)) := by
        push_neg
        exact ⟨hgap, hlen⟩
      simp only [segLoop, List.isEmpty_cons, Bool.false_eq_true, if_false]
      rw [if_neg hc]

theorem C4_witness :
    ((((joinWords [⟨"hello", 0, 1⟩]).length : ℤ) > 3 →
      segLoop 1 3 [⟨"x", 1, 2⟩] [] [⟨"hello", 0, 1⟩] 0 =
        segLoop 1 3 []
          ([] ++ [⟨0, (([⟨"hello", 0, 1⟩] : List Word).getLastD dw).«end»,
            joinWords [⟨"hello", 0, 1⟩]⟩]) [⟨"x", 1, 2⟩] 1) ∧
    (((joinWords [⟨"hello", 0, 1⟩]).length : ℤ) ≤ 3 →
      segLoop 1 3 [⟨"x", 1, 2⟩] [] [⟨"hello", 0, 1⟩] 0 =
        segLoop 1 3 [] [] ([⟨"hello", 0, 1⟩] ++ [⟨"x", 1, 2⟩]) 0)) :=
  C4_look_before_append 1 3 ⟨"x", 1, 2⟩ [] [] [⟨"hello", 0, 1⟩] 0 (by simp)
    (by norm_num [List.getLastD_cons, List.getLastD_nil, dw])

/-- C6: `format_time` truncates rather than rounds, with zero-padded
fields: `format_time 0 = "00:00:00,000"`,
`format_time 3661.5 = "01:01:01,500"`,
`format_time 59.999 = "00:00:59,999"`, and `format_time 1.0009` truncates
the millisecond field to `"000"`. -/
theorem C6_format_time_values :
    format_time 0 = "00:00:00,000" ∧
    format_time (7323 / 2) = "01:01:01,500" ∧
    format_time (59999 / 1000) = "00:00:59,999" ∧
    format_time (10009 / 10000) = "00:00:01,000" := by
  refine ⟨?_, ?_, ?_, ?_⟩ <;> norm_num [format_time, int_trunc] <;> decide

/-- C3 counterexample: five single-character words with no pauses and
`maxTextLength = 5` produce a first cue `"a b c d"` of length 7, which
exceeds `5 + 1`: the claimed bound forgets the joining space. -/
theorem C3_counterexample :
    build_subtitles_from_words
        [⟨"a", 0, 0⟩, ⟨"b", 1, 1⟩, ⟨"c", 2, 2⟩, ⟨"d", 3, 3⟩, ⟨"e", 4, 4⟩] 1 5 =
      some [⟨0, 3, "a b c d"⟩, ⟨4, 4, "e"⟩] ∧
    ¬((("a b c d" : String).length : ℤ) ≤ 5 + 1) := by
  constructor
  · norm_num [build_subtitles_from_words, segLoop, joinWords, dw]
    decide
  · decide

/-- C3 (amended): for single-character words with no pauses and
`maxTextLength = 5`, the segmenter splits exactly when the pre-append
joined length first exceeds 5 (after four words, pre-append length 7),
and the first emitted cue holds those four words, with text length
`5 + 1 + 1`: the bound is exceeded by the carried word's length plus the
one joining space, not by the word's length alone. -/
theorem C3_amended_length_split (w1 w2 w3 w4 w5 : Word) (rest : List Word)
    (pause : ℚ) (hp : 0 < pause)
    (hlen1 : w1.word.length = 1) (hlen2 : w2.word.length = 1)
    (hlen3 : w3.word.length = 1) (hlen4 : w4.word.length = 1)
    (hg2 : w2.start - w1.«end» ≤ pause) (hg3 : w3.start - w2.«end» ≤ pause)
    (hg4 : w4.start - w3.«end» ≤ pause) (_hg5 : w5.start - w4.«end» ≤ pause) :
    ∃ tail,
      build_subtitles_from_words (w1 :: w2 :: w3 :: w4 :: w5 :: rest) pause 5 =
        some (⟨w1.start, w4.«end», joinWords [w1, w2, w3, w4]⟩ :: tail) ∧
      ((joinWords [w1, w2, w3, w4]).length : ℤ) ≤ 5 + 1 + 1 := by
  have hsp : (" " : String).length = 1 := rfl
  have l1 : ((joinWords [w1]).length : ℤ) = 1 := by
    simp [joinWords, hlen1]
  have l2 : ((joinWords [w1, w2]).length : ℤ) = 3 := by
    simp [joinWords, hlen1, hlen2, hsp]
  have l3 : ((joinWords [w1, w2, w3]).length : ℤ) = 5 := by
    simp [joinWords, hlen1, hlen2, hlen3, hsp]
  have l4 : ((joinWords [w1, w2, w3, w4]).length : ℤ) = 7 := by
    simp [joinWords, hlen1, hlen2, hlen3, hlen4, hsp]
  have hc1 : ¬((0 : ℚ) > pause ∨ (((joinWords []).length : ℤ) > 5)) := by
    push_neg
    exact ⟨hp.le, by simp [joinWords]⟩
  have hc2 : ¬(w2.start - w1.«end» > pause ∨ (((joinWords [w1]).length : ℤ) > 5)) := by
    push_neg
    refine ⟨hg2, ?_⟩
    rw [l1]
    norm_num
  have hc3 : ¬(w3.start - w2.«end» > pause ∨ (((joinWords [w1, w2]).length : ℤ) > 5)) := by
    push_neg
    refine ⟨hg3, ?_⟩
    rw [l2]
    norm_num
  have hc4 : ¬(w4.start - w3.«end» > pause ∨
      (((joinWords [w1, w2, w3]).length : ℤ) > 5)) := by
    push_neg
    refine ⟨hg4, ?_⟩
    rw [l3]
  have hc5 : w5.start - w4.«end» > pause ∨
      (((joinWords [w1, w2, w3, w4]).length : ℤ) > 5) := by
    refine Or.inr ?_
    rw [l4]
    norm_num
  have e1 : build_subtitles_from_words (w1 :: w2 :: w3 :: w4 :: w5 :: rest) pause 5 =
      segLoop pause 5 rest [⟨w1.start, w4.«end», joinWords [w1, w2, w3, w4]⟩]
        [w5] w5.start := by
    simp only [build_subtitles_from_words, segLoop, List.isEmpty_nil, List.isEmpty_cons,
      Bool.false_eq_true, if_true, if_false, List.nil_append, List.singleton_append,
      List.cons_append, List.getLastD_cons, List.getLastD_nil]
    rw [if_neg hc1, if_neg hc2, if_neg hc3, if_neg hc4, if_pos hc5]
  obtain ⟨out, hout⟩ := Option.isSome_iff_exists.mp
    (segLoop_isSome pause 5 hp.le (by norm_num) rest
      [⟨w1.start, w4.«end», joinWords [w1, w2, w3, w4]⟩] [w5] w5.start)
  obtain ⟨tail, htail⟩ := segLoop_prefix pause 5 rest _ _ _ out hout
  refine ⟨tail, ?_, by rw [l4]; norm_num⟩
  rw [e1, hout, htail, List.singleton_append]

theorem C3_amended_witness :
    ∃ tail,
      build_subtitles_from_words
          [⟨"a", 0, 0⟩, ⟨"b", 1, 1⟩, ⟨"c", 2, 2⟩, ⟨"d", 3, 3⟩, ⟨"e", 4, 4⟩] 1 5 =
        some (⟨0, 3, joinWords [⟨"a", 0, 0⟩, ⟨"b", 1, 1⟩, ⟨"c", 2, 2⟩, ⟨"d", 3, 3⟩]⟩ ::
          tail) ∧
      ((joinWords [⟨"a", 0, 0⟩, ⟨"b", 1, 1⟩, ⟨"c", 2, 2⟩, ⟨"d", 3, 3⟩]).length : ℤ) ≤
        5 + 1 + 1 :=
  C3_amended_length_split ⟨"a", 0, 0⟩ ⟨"b", 1, 1⟩ ⟨"c", 2, 2⟩ ⟨"d", 3, 3⟩ ⟨"e", 4, 4⟩
    [] 1 (by norm_num) rfl rfl rfl rfl (by norm_num) (by norm_num) (by norm_num)
    (by norm_num)

/-- C5 counterexample: cue texts produced by the segmenter are NOT
trimmed; a word whose text carries leading whitespace (as Whisper words
do) yields a cue text that differs from the trimmed join. -/
theorem C5_counterexample :
    build_subtitles_from_words [⟨" hi", 0, 1⟩] 1 40 = some [⟨0, 1, " hi"⟩] ∧
    pyStrip (joinWords [⟨" hi", 0, 1⟩]) ≠ (" hi" : String) := by
  constructor
  · norm_num [build_subtitles_from_words, segLoop, joinWords, dw]
  · decide

/-- C5 (amended): every cue produced by the segmenter has `start` = first
word's start, `end` = last word's end, and `text` = the group's words
joined by single spaces, with NO trimming; the leading/trailing
whitespace trim is applied by the emitter when the cue is written
(`f.write(f"{text.strip()}\n\n")`). -/
theorem C5_cue_fields (words : List Word) (pause : ℚ) (max_len : ℤ) (subs : List Cue)
    (h : build_subtitles_from_words words pause max_len = some subs) :
    (∃ groups : List (List Word),
      words = groups.flatten ∧ (∀ g ∈ groups, g ≠ []) ∧
      subs = groups.map cueOf) ∧
    (∀ (i : ℕ) (c : Cue), emitCue i c =
      toString i ++ "\n" ++ format_time c.start ++ " --> " ++ format_time c.«end» ++
        "\n" ++ pyStrip c.text ++ "\n\n") :=
  ⟨build_partition words pause max_len subs h, fun _ _ => rfl⟩

theorem C5_witness :
    (∃ groups : List (List Word),
      [(⟨" hi", 0, 1⟩ : Word)] = groups.flatten ∧ (∀ g ∈ groups, g ≠ []) ∧
      [(⟨0, 1, " hi"⟩ : Cue)] = groups.map cueOf) ∧
    (∀ (i : ℕ) (c : Cue), emitCue i c =
      toString i ++ "\n" ++ format_time c.start ++ " --> " ++ format_time c.«end» ++
        "\n" ++ pyStrip c.text ++ "\n\n") :=
  C5_cue_fields [⟨" hi", 0, 1⟩] 1 40 [⟨0, 1, " hi"⟩]
    (by norm_num [build_subtitles_from_words, segLoop, joinWords, dw])

/-! ## Emitter lemmas -/

theorem renderDoc_nil (i : ℕ) : renderDoc i [] = "" := rfl

theorem renderDoc_cons (i : ℕ) (c : Cue) (cues : List Cue) :
    renderDoc i (c :: cues) = emitCue i c ++ renderDoc (i + 1) cues := by
  simp [renderDoc, List.length_cons, List.range'_succ]

theorem renderDoc_append (a b : List Cue) :
    ∀ i, renderDoc i (a ++ b) = renderDoc i a ++ renderDoc (i + a.length) b := by
  induction a with
  | nil => intro i; simp [renderDoc_nil]
  | cons c a ih =>
    intro i
    rw [List.cons_append, renderDoc_cons, renderDoc_cons, ih (i + 1),
      String.append_assoc]
    have he : i + 1 + a.length = i + (c :: a).length := by
      simp [List.length_cons]
      omega
    rw [he]

/-- The inner emission loop writes exactly the blocks of `renderDoc` and
advances the index by the number of cues written. -/
theorem writeCues_eq (cues : List Cue) :
    ∀ i, writeCues i cues = (renderDoc i cues, i + cues.length) := by
  induction cues with
  | nil => intro i; simp [writeCues, renderDoc_nil]
  | cons c cues ih =>
    intro i
    simp [writeCues, ih, renderDoc_cons]
    omega

/-- The whole emission loop is the indexed rendering of the concatenated
cue stream: the final index is the initial index plus the total number
of cues, empty segments contributing nothing. -/
theorem writeSegments_eq_collect (pause : ℚ) (max_len : ℤ) :
    ∀ (segs : List (List Word)) (index : ℕ),
      writeSegments pause max_len index segs =
        match collectCues pause max_len segs with
        | none => none
        | some cues => some (renderDoc index cues, index + cues.length) := by
  intro segs
  induction segs with
  | nil => intro i; simp [writeSegments, collectCues, renderDoc_nil]
  | cons seg rest ih =>
    intro i
    by_cases hseg : seg.isEmpty
    · simp only [writeSegments, collectCues, hseg, if_true]
      exact ih i
    · simp only [writeSegments, collectCues, hseg, Bool.false_eq_true, if_false]
      cases hb : build_subtitles_from_words seg pause max_len with
      | none => rfl
      | some subs =>
        simp only [writeCues_eq, ih]
        cases hc : collectCues pause max_len rest with
        | none => rfl
        | some more =>
          dsimp only
          rw [renderDoc_append subs more i, List.length_append]
          simp [Nat.add_assoc]

/-- C7: the emitter assigns cue indices sequentially, incremented exactly
once per emitted cue across the entire document regardless of source
segment boundaries: started at 1 (as in `main`), the run renders the
concatenated cue stream with consecutive indices `1, 2, …` (`renderDoc`
numbers block `k` with `index + k`) and ends with the counter advanced by
exactly the total cue count; a transcript segment with zero words
contributes zero cues and leaves the running counter unchanged. -/
theorem C7_emitter_sequential_indices (pause : ℚ) (max_len : ℤ)
    (segs : List (List Word)) :
    (∀ (index : ℕ) (rest : List (List Word)),
      writeSegments pause max_len index ([] :: rest) =
        writeSegments pause max_len index rest) ∧
    writeSegments pause max_len 1 segs =
      match collectCues pause max_len segs with
      | none => none
      | some cues => some (renderDoc 1 cues, 1 + cues.length) := by
  refine ⟨?_, writeSegments_eq_collect pause max_len segs 1⟩
  intro index rest
  simp [writeSegments]
